import Mathlib

/-!
# Verification of the Arnold cat-map brute-force decoder (`src/main.rs`)

Shallow embedding of the core of the repository:

* `Pixel`, `RgbImage` — the in-memory pixel buffer of the `image` crate:
  a `width × height` grid of 3-channel 8-bit pixels stored row-major
  (pixel `(x, y)` lives at flat index `y * width + x`).
* `apply_transform_to_buffer` — one inverse cat-map pass (src/main.rs:10-31).
  The destination buffer is fully overwritten (every row and every column is
  written), so the pass is modelled as a pure function of the source buffer.
  Rust's `rem_euclid` on `i64` with a positive modulus is Lean's `Int.emod`
  (`%`), which is non-negative for a positive modulus.
* `decode_loop` / `arnold_decode` — the double-buffered iteration
  (src/main.rs:34-53); the buffer swap makes iteration `k+1` read the output
  of iteration `k`, which the tail-recursive `decode_loop` models directly.
* `calculate_smoothness_score` — the scoring heuristic (src/main.rs:92-126).
  `f64` is modelled by exact rationals; `f64::MAX` is the exact rational
  `f64_MAX`.  The `u64` accumulator and the `u32` product
  `(width-1)*(height-1)*2` are modelled with wrap-around (release-mode Rust
  semantics), which is what makes the `num_comparisons == 0` check in the
  source reachable.
* `build_params` — the parameter-sweep enumeration of `main`
  (src/main.rs:235-242), over Rust half-open `i64` ranges as returned by
  `get_user_range` (src/main.rs:69-89): an inclusive user range `[lo, hi]`
  becomes `lo..(hi+1)`.  `st as u32` truncates to the low 32 bits, i.e. takes
  the non-negative remainder modulo `2^32` (`st_as_u32`).
-/

set_option maxHeartbeats 1000000

/-- One RGB pixel: three 8-bit channel samples (`image::Rgb<u8>`). -/
@[ext]
structure Pixel where
  c0 : Fin 256
  c1 : Fin 256
  c2 : Fin 256
deriving DecidableEq

/-- The all-zero pixel (`RgbImage::new` zero-fills; also the `getD` default). -/
def pixel0 : Pixel := ⟨0, 0, 0⟩

/-- An `image::RgbImage`: a `width × height` pixel buffer, stored row-major. -/
structure RgbImage where
  width : Nat
  height : Nat
  data : List Pixel
deriving DecidableEq

/-- `RgbImage::get_pixel(x, y)`: row-major lookup at flat index `y*width + x`. -/
def RgbImage.getPixel (img : RgbImage) (x y : Nat) : Pixel :=
  img.data.getD (y * img.width + x) pixel0

/-- Body of the per-pixel loop of `apply_transform_to_buffer`
(src/main.rs:16-28): the destination pixel at `(row, col)` is the source pixel
at x-coordinate `old_col = (a*row + (a*b+1)*col).rem_euclid(n)` and
y-coordinate `old_row = (row + b*col).rem_euclid(n)`, where `n = height`. -/
def transformPixel (src : RgbImage) (a b : Int) (row col : Nat) : Pixel :=
  src.getPixel
    ((a * (row : Int) + (a * b + 1) * (col : Int)) % (src.height : Int)).toNat
    (((row : Int) + b * (col : Int)) % (src.height : Int)).toNat

/-- `apply_transform_to_buffer` (src/main.rs:10-31): the destination buffer,
row by row (rows of length `width`, one per `row_idx < height`). -/
def apply_transform_to_buffer (src : RgbImage) (a b : Int) : RgbImage :=
  { width := src.width, height := src.height,
    data := (List.range src.height).flatMap fun row =>
      (List.range src.width).map fun col => transformPixel src a b row col }

/-- The `for _ in 0..shuffle_times` loop of `arnold_decode` (src/main.rs:47-50):
each iteration transforms the current source buffer and the swap makes the
result the next source. -/
def decode_loop (a b : Int) : Nat → RgbImage → RgbImage
  | 0, src => src
  | k + 1, src => decode_loop a b k (apply_transform_to_buffer src a b)

/-- `arnold_decode` (src/main.rs:34-53): `shuffle_times == 0` returns a clone
of the input; otherwise the transform is applied `shuffle_times` times. -/
def arnold_decode (image : RgbImage) (shuffle_times : Nat) (a b : Int) : RgbImage :=
  if shuffle_times = 0 then image
  else decode_loop a b shuffle_times image

/-- Modulus of Rust `u32` arithmetic. -/
def u32_MOD : Nat := 2 ^ 32

/-- Modulus of Rust `u64` arithmetic. -/
def u64_MOD : Nat := 2 ^ 64

/-- The value `f64::MAX` = `(2^53 - 1) * 2^971`, with `f64` modelled by exact
rationals. -/
def f64_MAX : ℚ := (2 ^ 53 - 1) * 2 ^ 971

/-- The six absolute per-channel differences accumulated for one pixel `p1`
against its right neighbour `p2` and bottom neighbour `p3`
(`diff_h + diff_v`, src/main.rs:108-116). -/
def pixel_diff6 (p1 p2 p3 : Pixel) : Nat :=
  (((p1.c0.val : Int) - (p2.c0.val : Int)).natAbs +
   ((p1.c1.val : Int) - (p2.c1.val : Int)).natAbs +
   ((p1.c2.val : Int) - (p2.c2.val : Int)).natAbs) +
  (((p1.c0.val : Int) - (p3.c0.val : Int)).natAbs +
   ((p1.c1.val : Int) - (p3.c1.val : Int)).natAbs +
   ((p1.c2.val : Int) - (p3.c2.val : Int)).natAbs)

/-- The per-pixel contributions visited by the double loop of
`calculate_smoothness_score` (src/main.rs:101-118), in iteration order. -/
def diffList (image : RgbImage) : List Nat :=
  (List.range (image.height - 1)).flatMap fun y =>
    (List.range (image.width - 1)).map fun x =>
      pixel_diff6 (image.getPixel x y) (image.getPixel (x + 1) y)
        (image.getPixel x (y + 1))

/-- The `total_diff` accumulator: a `u64` running sum (wrapping). -/
def total_diff (image : RgbImage) : Nat :=
  (diffList image).foldl (fun acc d => (acc + d) % u64_MOD) 0

/-- `calculate_smoothness_score` (src/main.rs:92-126).  `num_comparisons` is
the `u32` product `(width - 1) * (height - 1) * 2` (wrapping). -/
def calculate_smoothness_score (image : RgbImage) : ℚ :=
  if image.width < 2 ∨ image.height < 2 then f64_MAX
  else if (image.width - 1) * (image.height - 1) * 2 % u32_MOD = 0 then f64_MAX
  else (total_diff image : ℚ) /
    (((image.width - 1) * (image.height - 1) * 2 % u32_MOD : Nat) : ℚ)

/-- The scoring formula exactly as the spec words it (section 4.4): the plain
sum of the six absolute per-channel differences over every pixel having both a
right and a bottom neighbour, divided by `2 × (width-1) × (height-1)`, with no
intermediate truncation.  Kept separate from `calculate_smoothness_score` so
the two can be compared. -/
def spec_smoothness_score (image : RgbImage) : ℚ :=
  ((diffList image).sum : ℚ) /
    ((2 * (image.width - 1) * (image.height - 1) : Nat) : ℚ)

/-- Rust `st as u32` on an `i64` value: truncation to the low 32 bits, i.e.
the non-negative remainder modulo `2^32`. -/
def st_as_u32 (x : Int) : Nat := (x % (2 : Int) ^ 32).toNat

/-- The values yielded by iterating a Rust half-open `Range<i64>`
`start..stop`: `start, start+1, ...` while `< stop`. -/
def range_values (start stop : Int) : List Int :=
  (List.range (stop - start).toNat).map fun (i : Nat) => start + (i : Int)

/-- The `params` vector built by the triple-nested loop of `main`
(src/main.rs:235-242): for `st` in the shuffle-times range, `a` in the
`a` range, `b` in the `b` range (outer to inner), push `(st as u32, a, b)`. -/
def build_params (kr ar br : Int × Int) : List (Nat × Int × Int) :=
  (range_values kr.1 kr.2).flatMap fun st =>
    (range_values ar.1 ar.2).flatMap fun a =>
      (range_values br.1 br.2).map fun b => (st_as_u32 st, a, b)

/-- Membership in the value range of Rust's `i64`. -/
def in_i64 (x : Int) : Prop := -(2 ^ 63) ≤ x ∧ x < 2 ^ 63

instance (x : Int) : Decidable (in_i64 x) := instDecidableAnd

/-- Every signed intermediate value computed by lines 20-21 of
`apply_transform_to_buffer` for destination coordinate `(row, col)`:
`b*col`, `row + b*col`, `a*b`, `a*b + 1`, `a*row`, `(a*b+1)*col`, and
`a*row + (a*b+1)*col`. -/
def transform_intermediates (a b : Int) (row col : Nat) : List Int :=
  [b * (col : Int),
   (row : Int) + b * (col : Int),
   a * b,
   a * b + 1,
   a * (row : Int),
   (a * b + 1) * (col : Int),
   a * (row : Int) + (a * b + 1) * (col : Int)]

/-- The flat source index read by `transformPixel` for destination index `i`
of a square `N × N` buffer (destination row `i / N`, column `i % N`). -/
def tpi (a b : Int) (N : Nat) (i : Nat) : Nat :=
  ((((i / N : Nat) : Int) + b * ((i % N : Nat) : Int)) % (N : Int)).toNat * N +
  ((a * ((i / N : Nat) : Int) + (a * b + 1) * ((i % N : Nat) : Int)) %
    (N : Int)).toNat

/-- Concrete 1×1 image (degenerate-score witness input). -/
def img1 : RgbImage := ⟨1, 1, [⟨9, 9, 9⟩]⟩

/-- Concrete 2×2 image with distinct pixels (witness input). -/
def img2 : RgbImage :=
  ⟨2, 2, [⟨0, 0, 0⟩, ⟨1, 2, 3⟩, ⟨4, 5, 6⟩, ⟨7, 8, 9⟩]⟩

/-- Concrete uniform 2×2 image (witness input for the scoring formula). -/
def img2u : RgbImage := ⟨2, 2, [⟨5, 6, 7⟩, ⟨5, 6, 7⟩, ⟨5, 6, 7⟩, ⟨5, 6, 7⟩]⟩

/-- Concrete 3×3 image with distinct pixels (witness input). -/
def img3 : RgbImage :=
  ⟨3, 3, [⟨0, 0, 0⟩, ⟨1, 1, 1⟩, ⟨2, 2, 2⟩, ⟨3, 3, 3⟩, ⟨4, 4, 4⟩,
    ⟨5, 5, 5⟩, ⟨6, 6, 6⟩, ⟨7, 7, 7⟩, ⟨8, 8, 8⟩]⟩

/-- A uniform single-colour 65537×65537 image.  Its `num_comparisons` value
`65536 * 65536 * 2 = 2^33` wraps to `0` in `u32` arithmetic. -/
def bigUniform : RgbImage := ⟨65537, 65537, List.replicate (65537 * 65537) pixel0⟩

/-! ## General list helpers -/

theorem length_flatMap_range {α : Type} (g : Nat → List α) (h w : Nat)
    (hw : ∀ i, i < h → (g i).length = w) :
    ((List.range h).flatMap g).length = h * w := by
  induction h with
  | zero => simp
  | succ n ih =>
    rw [List.range_succ, List.flatMap_append, List.length_append,
      ih (fun i hi => hw i (Nat.lt_succ_of_lt hi))]
    simp [hw n (Nat.lt_succ_self n), Nat.succ_mul]

theorem mul_add_lt_mul {r c h w : Nat} (hr : r < h) (hc : c < w) :
    r * w + c < h * w := by
  calc r * w + c < r * w + w := by omega
    _ = (r + 1) * w := by ring
    _ ≤ h * w := mul_le_mul_right' hr w

theorem getElem?_flatMap_range {α : Type} (g : Nat → List α) (h w r c : Nat)
    (hw : ∀ i, i < h → (g i).length = w) (hr : r < h) (hc : c < w) :
    ((List.range h).flatMap g)[r * w + c]? = (g r)[c]? := by
  induction h with
  | zero => exact absurd hr (Nat.not_lt_zero r)
  | succ n ih =>
    rw [List.range_succ, List.flatMap_append]
    have hlen : ((List.range n).flatMap g).length = n * w :=
      length_flatMap_range g n w (fun i hi => hw i (Nat.lt_succ_of_lt hi))
    by_cases hrn : r < n
    · rw [List.getElem?_append_left (by rw [hlen]; exact mul_add_lt_mul hrn hc)]
      exact ih (fun i hi => hw i (Nat.lt_succ_of_lt hi)) hrn
    · have hre : r = n := by omega
      subst hre
      rw [List.getElem?_append_right (by rw [hlen]; omega)]
      rw [hlen]
      simp

theorem getElem?_flatMap_range_div {α : Type} (g : Nat → List α) (h w i : Nat)
    (hw : ∀ j, j < h → (g j).length = w) (hi : i < h * w) (h0 : 0 < w) :
    ((List.range h).flatMap g)[i]? = (g (i / w))[i % w]? := by
  have hq : i / w < h := by rw [Nat.div_lt_iff_lt_mul h0]; omega
  have := getElem?_flatMap_range g h w (i / w) (i % w) hw hq (Nat.mod_lt _ h0)
  rwa [Nat.div_add_mod'] at this

theorem map_getD_range_eq {α : Type} (l : List α) (d : α) :
    (List.range l.length).map (fun i => l.getD i d) = l := by
  apply List.ext_getElem?
  intro n
  by_cases hn : n < l.length
  · rw [List.getElem?_map, List.getElem?_range hn, List.getElem?_eq_getElem hn]
    simp [List.getD_eq_getElem?_getD, List.getElem?_eq_getElem hn]
  · rw [List.getElem?_map, List.getElem?_eq_none (by simpa using le_of_not_lt hn),
      List.getElem?_eq_none (le_of_not_lt hn)]
    rfl

theorem perm_map_getD_of_bij {α : Type} [DecidableEq α] (l : List α) (d : α)
    (p : Nat → Nat)
    (hmaps : ∀ i, i < l.length → p i < l.length)
    (hinj : ∀ i j, i < l.length → j < l.length → p i = p j → i = j) :
    ((List.range l.length).map fun i => l.getD (p i) d).Perm l := by
  have hnd : ((List.range l.length).map p).Nodup := by
    refine List.Nodup.map_on ?_ (List.nodup_range _)
    intro x hx y hy hxy
    exact hinj x y (List.mem_range.mp hx) (List.mem_range.mp hy) hxy
  have hsub : ((List.range l.length).map p).toFinset ⊆
      (List.range l.length).toFinset := by
    intro x hx
    simp only [List.mem_toFinset, List.mem_map, List.mem_range] at hx ⊢
    obtain ⟨i, hi, rfl⟩ := hx
    exact hmaps i hi
  have hcard : (List.range l.length).toFinset.card ≤
      ((List.range l.length).map p).toFinset.card := by
    rw [List.toFinset_card_of_nodup hnd,
      List.toFinset_card_of_nodup (List.nodup_range _)]
    simp
  have hfs : ((List.range l.length).map p).toFinset =
      (List.range l.length).toFinset :=
    Finset.eq_of_subset_of_card_le hsub hcard
  have hperm : ((List.range l.length).map p).Perm (List.range l.length) :=
    List.perm_of_nodup_nodup_toFinset_eq hnd (List.nodup_range _) hfs
  have hmapped := hperm.map (fun j => l.getD j d)
  rw [List.map_map] at hmapped
  have hid : (List.range l.length).map (fun j => l.getD j d) = l :=
    map_getD_range_eq l d
  rw [hid] at hmapped
  exact hmapped

theorem foldl_addmod (m : Nat) (hm : 0 < m) (l : List Nat) :
    ∀ init, init < m →
      l.foldl (fun acc d => (acc + d) % m) init = (init + l.sum) % m := by
  induction l with
  | nil => intro init h; simp [Nat.mod_eq_of_lt h]
  | cons x xs ih =>
    intro init h
    simp only [List.foldl_cons, List.sum_cons]
    rw [ih _ (Nat.mod_lt _ hm), Nat.mod_add_mod]
    congr 1
    omega

/-! ## Transform arithmetic helpers -/

theorem mul_add_inj {q r q2 r2 w : Nat} (hr : r < w) (hr2 : r2 < w)
    (h : q * w + r = q2 * w + r2) : q = q2 ∧ r = r2 := by
  have hw : 0 < w := by omega
  have hmod : r = r2 := by
    have h1 : (q * w + r) % w = r := by
      rw [Nat.mul_comm q w, Nat.mul_add_mod, Nat.mod_eq_of_lt hr]
    have h2 : (q2 * w + r2) % w = r2 := by
      rw [Nat.mul_comm q2 w, Nat.mul_add_mod, Nat.mod_eq_of_lt hr2]
    rw [← h1, ← h2, h]
  refine ⟨?_, hmod⟩
  apply Nat.eq_of_mul_eq_mul_right hw
  omega

theorem transform_index_inj (a b : Int) (N : Nat) (hN : 0 < N)
    (r c r2 c2 : Nat) (hc : c < N) (hc2 : c2 < N) (hr : r < N) (hr2 : r2 < N)
    (h1 : ((r : Int) + b * (c : Int)) % (N : Int) =
      ((r2 : Int) + b * (c2 : Int)) % (N : Int))
    (h2 : (a * (r : Int) + (a * b + 1) * (c : Int)) % (N : Int) =
      (a * (r2 : Int) + (a * b + 1) * (c2 : Int)) % (N : Int)) :
    r = r2 ∧ c = c2 := by
  have m1 : Int.ModEq (N : Int) ((r : Int) + b * (c : Int))
      ((r2 : Int) + b * (c2 : Int)) := h1
  have m2 : Int.ModEq (N : Int) (a * (r : Int) + (a * b + 1) * (c : Int))
      (a * (r2 : Int) + (a * b + 1) * (c2 : Int)) := h2
  have m3 : Int.ModEq (N : Int) (c : Int) (c2 : Int) := by
    have h4 := m2.sub (m1.mul_left a)
    have e1 : a * (r : Int) + (a * b + 1) * (c : Int) -
        a * ((r : Int) + b * (c : Int)) = (c : Int) := by ring
    have e2 : a * (r2 : Int) + (a * b + 1) * (c2 : Int) -
        a * ((r2 : Int) + b * (c2 : Int)) = (c2 : Int) := by ring
    rwa [e1, e2] at h4
  have hcc : (c : Int) = (c2 : Int) := by
    have hmc : (c : Int) % (N : Int) = (c2 : Int) % (N : Int) := m3
    rwa [Int.emod_eq_of_lt (by positivity) (by exact_mod_cast hc),
      Int.emod_eq_of_lt (by positivity) (by exact_mod_cast hc2)] at hmc
  have hceq : c = c2 := by exact_mod_cast hcc
  subst hceq
  have m4 : Int.ModEq (N : Int) (r : Int) (r2 : Int) := by
    have h5 := m1.sub (Int.ModEq.refl (b * (c : Int)))
    have e1 : (r : Int) + b * (c : Int) - b * (c : Int) = (r : Int) := by ring
    have e2 : (r2 : Int) + b * (c : Int) - b * (c : Int) = (r2 : Int) := by ring
    rwa [e1, e2] at h5
  have hrr : (r : Int) = (r2 : Int) := by
    have hmr : (r : Int) % (N : Int) = (r2 : Int) % (N : Int) := m4
    rwa [Int.emod_eq_of_lt (by positivity) (by exact_mod_cast hr),
      Int.emod_eq_of_lt (by positivity) (by exact_mod_cast hr2)] at hmr
  exact ⟨by exact_mod_cast hrr, rfl⟩

theorem tpi_lt (a b : Int) (N : Nat) (hN : 0 < N) (i : Nat) :
    tpi a b N i < N * N := by
  unfold tpi
  have hNZ : (N : Int) ≠ 0 := by exact_mod_cast hN.ne'
  have hNpos : (0 : Int) < (N : Int) := by exact_mod_cast hN
  have h1 := Int.emod_nonneg (((i / N : Nat) : Int) + b * ((i % N : Nat) : Int)) hNZ
  have h2 := Int.emod_lt_of_pos (((i / N : Nat) : Int) + b * ((i % N : Nat) : Int)) hNpos
  have h3 := Int.emod_nonneg
    (a * ((i / N : Nat) : Int) + (a * b + 1) * ((i % N : Nat) : Int)) hNZ
  have h4 := Int.emod_lt_of_pos
    (a * ((i / N : Nat) : Int) + (a * b + 1) * ((i % N : Nat) : Int)) hNpos
  exact mul_add_lt_mul (by omega) (by omega)

theorem tpi_inj (a b : Int) (N : Nat) (hN : 0 < N) (i j : Nat)
    (hi : i < N * N) (hj : j < N * N) (heq : tpi a b N i = tpi a b N j) :
    i = j := by
  have hNZ : (N : Int) ≠ 0 := by exact_mod_cast hN.ne'
  have hNpos : (0 : Int) < (N : Int) := by exact_mod_cast hN
  unfold tpi at heq
  have n1 := Int.emod_nonneg (((i / N : Nat) : Int) + b * ((i % N : Nat) : Int)) hNZ
  have n2 := Int.emod_nonneg (((j / N : Nat) : Int) + b * ((j % N : Nat) : Int)) hNZ
  have n3 := Int.emod_nonneg
    (a * ((i / N : Nat) : Int) + (a * b + 1) * ((i % N : Nat) : Int)) hNZ
  have n4 := Int.emod_nonneg
    (a * ((j / N : Nat) : Int) + (a * b + 1) * ((j % N : Nat) : Int)) hNZ
  have l3 := Int.emod_lt_of_pos
    (a * ((i / N : Nat) : Int) + (a * b + 1) * ((i % N : Nat) : Int)) hNpos
  have l4 := Int.emod_lt_of_pos
    (a * ((j / N : Nat) : Int) + (a * b + 1) * ((j % N : Nat) : Int)) hNpos
  obtain ⟨hq, hr⟩ := mul_add_inj (by omega) (by omega) heq
  have hOR : (((i / N : Nat) : Int) + b * ((i % N : Nat) : Int)) % (N : Int) =
      (((j / N : Nat) : Int) + b * ((j % N : Nat) : Int)) % (N : Int) := by
    rw [← Int.toNat_of_nonneg n1, ← Int.toNat_of_nonneg n2, hq]
  have hOC : (a * ((i / N : Nat) : Int) + (a * b + 1) * ((i % N : Nat) : Int)) %
      (N : Int) =
      (a * ((j / N : Nat) : Int) + (a * b + 1) * ((j % N : Nat) : Int)) %
      (N : Int) := by
    rw [← Int.toNat_of_nonneg n3, ← Int.toNat_of_nonneg n4, hr]
  have hdivi : i / N < N := by rw [Nat.div_lt_iff_lt_mul hN]; omega
  have hdivj : j / N < N := by rw [Nat.div_lt_iff_lt_mul hN]; omega
  obtain ⟨hd, hm⟩ := transform_index_inj a b N hN (i / N) (i % N) (j / N) (j % N)
    (Nat.mod_lt _ hN) (Nat.mod_lt _ hN) hdivi hdivj hOR hOC
  have di := Nat.div_add_mod i N
  have dj := Nat.div_add_mod j N
  calc i = N * (i / N) + i % N := di.symm
    _ = N * (j / N) + j % N := by rw [hd, hm]
    _ = j := dj

/-! ## The single pass as a reindexing of the data buffer -/

theorem apply_transform_data_eq (img : RgbImage) (a b : Int)
    (hsq : img.width = img.height) :
    (apply_transform_to_buffer img a b).data =
      (List.range (img.height * img.height)).map
        fun i => img.data.getD (tpi a b img.height i) pixel0 := by
  rcases Nat.eq_zero_or_pos img.height with h0 | hh
  · show (List.range img.height).flatMap _ = _
    rw [h0]
    simp
  apply List.ext_getElem?
  intro i
  by_cases hi : i < img.height * img.height
  · have hL : (apply_transform_to_buffer img a b).data[i]? =
        some (transformPixel img a b (i / img.height) (i % img.height)) := by
      show ((List.range img.height).flatMap _)[i]? = _
      rw [getElem?_flatMap_range_div _ img.height img.height i
        (fun j _ => by simp [hsq]) hi hh]
      have hwidth : i % img.height < img.width := by
        rw [hsq]; exact Nat.mod_lt _ hh
      rw [List.getElem?_map, List.getElem?_range hwidth]
      rfl
    have hR : ((List.range (img.height * img.height)).map
        fun j => img.data.getD (tpi a b img.height j) pixel0)[i]? =
        some (img.data.getD (tpi a b img.height i) pixel0) := by
      rw [List.getElem?_map, List.getElem?_range hi]
      rfl
    rw [hL, hR]
    congr 1
    show transformPixel img a b (i / img.height) (i % img.height) = _
    unfold transformPixel RgbImage.getPixel tpi
    rw [hsq]
  · have h1 : (apply_transform_to_buffer img a b).data.length =
        img.height * img.height := by
      show ((List.range img.height).flatMap _).length = _
      rw [length_flatMap_range _ img.height img.width (fun j _ => by simp), hsq]
    have h2 : ((List.range (img.height * img.height)).map
        fun j => img.data.getD (tpi a b img.height j) pixel0).length =
        img.height * img.height := by simp
    rw [List.getElem?_eq_none (by omega), List.getElem?_eq_none (by omega)]

theorem apply_transform_perm (img : RgbImage) (a b : Int)
    (hsq : img.width = img.height)
    (hlen : img.data.length = img.width * img.height) :
    (apply_transform_to_buffer img a b).data.Perm img.data := by
  rcases Nat.eq_zero_or_pos img.height with h0 | hh
  · have hempty : img.data = [] := by
      rw [← List.length_eq_zero, hlen, h0]
      ring
    rw [apply_transform_data_eq img a b hsq, hempty, h0]
    simp
  · have hlen2 : img.data.length = img.height * img.height := by
      rw [hlen, hsq]
    rw [apply_transform_data_eq img a b hsq]
    have hperm := perm_map_getD_of_bij img.data pixel0 (tpi a b img.height)
      (fun i _ => by rw [hlen2]; exact tpi_lt a b img.height hh i)
      (fun i j hi hj hpij => by
        rw [hlen2] at hi hj
        exact tpi_inj a b img.height hh i j hi hj hpij)
    rwa [hlen2] at hperm

theorem apply_transform_width (img : RgbImage) (a b : Int) :
    (apply_transform_to_buffer img a b).width = img.width := rfl

theorem apply_transform_height (img : RgbImage) (a b : Int) :
    (apply_transform_to_buffer img a b).height = img.height := rfl

theorem apply_transform_length (img : RgbImage) (a b : Int) :
    (apply_transform_to_buffer img a b).data.length =
      img.width * img.height := by
  show ((List.range img.height).flatMap _).length = _
  rw [length_flatMap_range _ img.height img.width (fun j _ => by simp)]
  ring

theorem decode_loop_perm (a b : Int) (k : Nat) :
    ∀ img : RgbImage, img.width = img.height →
      img.data.length = img.width * img.height →
      (decode_loop a b k img).data.Perm img.data := by
  induction k with
  | zero => intro img _ _; exact List.Perm.refl _
  | succ n ih =>
    intro img hsq hlen
    have h1 := apply_transform_perm img a b hsq hlen
    have h2 := ih (apply_transform_to_buffer img a b)
      (by rw [apply_transform_width, apply_transform_height]; exact hsq)
      (by rw [apply_transform_length, apply_transform_width,
        apply_transform_height])
    exact h2.trans h1

theorem decode_loop_succ_eq (a b : Int) (k : Nat) :
    ∀ img : RgbImage, decode_loop a b (k + 1) img =
      apply_transform_to_buffer (decode_loop a b k img) a b := by
  induction k with
  | zero => intro img; rfl
  | succ n ih => intro img; exact ih (apply_transform_to_buffer img a b)

/-! ## Claim C1: the single-pass pixel formula -/

/-- C1: for every square N×N source image, all integers `a`, `b`, and every
destination coordinate `(row, col)` in `[0, N)²`, the single-pass transform
writes into destination `(row, col)` the source pixel at column
`old_col = (a*row + (a*b+1)*col) mod N` and row `old_row = (row + b*col) mod N`,
both computed with the Euclidean (non-negative) remainder. -/
theorem C1_transform_pixel_formula (img : RgbImage) (a b : Int) (row col : Nat)
    (hsq : img.width = img.height) (hrow : row < img.height)
    (hcol : col < img.height) :
    (apply_transform_to_buffer img a b).getPixel col row =
      img.getPixel
        ((a * (row : Int) + (a * b + 1) * (col : Int)) %
          (img.height : Int)).toNat
        (((row : Int) + b * (col : Int)) % (img.height : Int)).toNat := by
  have hcw : col < img.width := by rw [hsq]; exact hcol
  show ((List.range img.height).flatMap fun r =>
      (List.range img.width).map fun c => transformPixel img a b r c).getD
      (row * img.width + col) pixel0 = _
  rw [List.getD_eq_getElem?_getD,
    getElem?_flatMap_range _ img.height img.width row col
      (fun i _ => by simp) hrow hcw,
    List.getElem?_map, List.getElem?_range hcw]
  rfl

/-- Witness for C1 at `img3`, `a = -1`, `b = 2`, `(row, col) = (1, 2)`:
`old_row = (1 + 2*2) mod 3 = 2`, `old_col = (-1 + (-1)*2) mod 3 = 0`. -/
theorem C1_witness :
    (apply_transform_to_buffer img3 (-1) 2).getPixel 2 1 =
      img3.getPixel 0 2 := by
  have h := C1_transform_pixel_formula img3 (-1) 2 1 2 rfl (by decide) (by decide)
  exact h.trans (by decide)

/-! ## Claim C2: compositionality of the iterated decoder -/

/-- C2: for every square image, all integers `a`, `b`, and every `k`,
`decode(image, k+1, a, b)` is one additional pass applied to
`decode(image, k, a, b)`. -/
theorem C2_decode_compositional (image : RgbImage) (a b : Int) (k : Nat)
    (hsq : image.width = image.height) :
    arnold_decode image (k + 1) a b =
      apply_transform_to_buffer (arnold_decode image k a b) a b := by
  unfold arnold_decode
  cases k with
  | zero => simp [decode_loop]
  | succ n =>
    rw [if_neg (Nat.succ_ne_zero (n + 1)), if_neg (Nat.succ_ne_zero n)]
    exact decode_loop_succ_eq a b (n + 1) image

/-- Witness for C2 at `img2`, `a = 1`, `b = -1`, `k = 1`. -/
theorem C2_witness :
    arnold_decode img2 (1 + 1) 1 (-1) =
      apply_transform_to_buffer (arnold_decode img2 1 1 (-1)) 1 (-1) :=
  C2_decode_compositional img2 1 (-1) 1 rfl

/-! ## Claim C3: the decoder permutes pixels, never altering values -/

/-- C3: for every square image (with its buffer invariant
`data.length = width * height`), all integers `a`, `b` and every iteration
count `k`, the decoded image has exactly the same multiset of pixel values as
the input. -/
theorem C3_decode_preserves_multiset (image : RgbImage) (k : Nat) (a b : Int)
    (hsq : image.width = image.height)
    (hlen : image.data.length = image.width * image.height) :
    ((arnold_decode image k a b).data : Multiset Pixel) =
      (image.data : Multiset Pixel) := by
  rw [Multiset.coe_eq_coe]
  unfold arnold_decode
  by_cases hk : k = 0
  · rw [if_pos hk]
  · rw [if_neg hk]
    exact decode_loop_perm a b k image hsq hlen

/-- Witness for C3 at `img2`, `k = 3`, `a = 2`, `b = -3`. -/
theorem C3_witness :
    ((arnold_decode img2 3 2 (-3)).data : Multiset Pixel) =
      (img2.data : Multiset Pixel) :=
  C3_decode_preserves_multiset img2 3 2 (-3) rfl rfl

/-! ## Claim C5: zero iterations return the input unchanged -/

/-- C5: for every image and all integers `a`, `b`, decoding with `k = 0`
returns an image pixel-identical to the input. -/
theorem C5_decode_zero_identity (image : RgbImage) (a b : Int) :
    arnold_decode image 0 a b = image := rfl

/-! ## Claim C9: source lookups of the pass are always in bounds -/

/-- C9: for every square image with `N = width = height > 0` and buffer
invariant `data.length = width * height`, and every destination coordinate in
`[0, N)²`, the computed source coordinates satisfy `0 ≤ old_row < N` and
`0 ≤ old_col < N` (both moduli taken from the image height), so the source
lookup of the pass reads a genuine in-range element of the buffer. -/
theorem C9_lookup_in_bounds (img : RgbImage) (a b : Int) (row col : Nat)
    (hsq : img.width = img.height) (hN : 0 < img.height)
    (hlen : img.data.length = img.width * img.height)
    (hrow : row < img.height) (hcol : col < img.height) :
    0 ≤ ((row : Int) + b * (col : Int)) % (img.height : Int) ∧
    ((row : Int) + b * (col : Int)) % (img.height : Int) < (img.height : Int) ∧
    0 ≤ (a * (row : Int) + (a * b + 1) * (col : Int)) % (img.height : Int) ∧
    (a * (row : Int) + (a * b + 1) * (col : Int)) % (img.height : Int) <
      (img.height : Int) ∧
    ∃ hidx : (((row : Int) + b * (col : Int)) % (img.height : Int)).toNat *
        img.width +
        ((a * (row : Int) + (a * b + 1) * (col : Int)) %
          (img.height : Int)).toNat < img.data.length,
      transformPixel img a b row col =
        img.data.get
          ⟨(((row : Int) + b * (col : Int)) % (img.height : Int)).toNat *
            img.width +
            ((a * (row : Int) + (a * b + 1) * (col : Int)) %
              (img.height : Int)).toNat, hidx⟩ := by
  have hNZ : (img.height : Int) ≠ 0 := by exact_mod_cast hN.ne'
  have hNpos : (0 : Int) < (img.height : Int) := by exact_mod_cast hN
  have h1 := Int.emod_nonneg ((row : Int) + b * (col : Int)) hNZ
  have h2 := Int.emod_lt_of_pos ((row : Int) + b * (col : Int)) hNpos
  have h3 := Int.emod_nonneg (a * (row : Int) + (a * b + 1) * (col : Int)) hNZ
  have h4 := Int.emod_lt_of_pos (a * (row : Int) + (a * b + 1) * (col : Int))
    hNpos
  have hor : (((row : Int) + b * (col : Int)) % (img.height : Int)).toNat <
      img.height := by omega
  have hoc : ((a * (row : Int) + (a * b + 1) * (col : Int)) %
      (img.height : Int)).toNat < img.height := by omega
  have hidx : (((row : Int) + b * (col : Int)) % (img.height : Int)).toNat *
      img.width +
      ((a * (row : Int) + (a * b + 1) * (col : Int)) %
        (img.height : Int)).toNat < img.data.length := by
    rw [hlen, hsq]
    exact mul_add_lt_mul hor hoc
  refine ⟨h1, h2, h3, h4, hidx, ?_⟩
  unfold transformPixel RgbImage.getPixel
  rw [List.getD_eq_getElem?_getD, List.getElem?_eq_getElem hidx]
  rfl

/-- Witness for C9 at `img3`, `a = 5`, `b = -7`, `(row, col) = (2, 1)`. -/
theorem C9_witness :
    0 ≤ (((2 : Nat) : Int) + (-7) * ((1 : Nat) : Int)) % (img3.height : Int) ∧
    (((2 : Nat) : Int) + (-7) * ((1 : Nat) : Int)) % (img3.height : Int) <
      (img3.height : Int) := by
  have h := C9_lookup_in_bounds img3 5 (-7) 2 1 rfl (by decide) rfl
    (by decide) (by decide)
  exact ⟨h.1, h.2.1⟩

/-! ## Scoring helpers -/

theorem pixel_diff6_le (p1 p2 p3 : Pixel) : pixel_diff6 p1 p2 p3 ≤ 1530 := by
  have a1 := p1.c0.isLt
  have a2 := p1.c1.isLt
  have a3 := p1.c2.isLt
  have b1 := p2.c0.isLt
  have b2 := p2.c1.isLt
  have b3 := p2.c2.isLt
  have d1 := p3.c0.isLt
  have d2 := p3.c1.isLt
  have d3 := p3.c2.isLt
  unfold pixel_diff6
  omega

theorem pixel_diff6_eq_zero_iff (p1 p2 p3 : Pixel) :
    pixel_diff6 p1 p2 p3 = 0 ↔ p2 = p1 ∧ p3 = p1 := by
  unfold pixel_diff6
  simp only [Pixel.ext_iff, Fin.ext_iff]
  omega

theorem diffList_length (image : RgbImage) :
    (diffList image).length = (image.height - 1) * (image.width - 1) := by
  unfold diffList
  exact length_flatMap_range _ _ _ (fun i _ => by simp)

theorem diffList_sum_le (image : RgbImage) :
    (diffList image).sum ≤ (image.height - 1) * (image.width - 1) * 1530 := by
  have h := List.sum_le_card_nsmul (diffList image) 1530 ?_
  · rwa [diffList_length, smul_eq_mul] at h
  · intro x hx
    unfold diffList at hx
    simp only [List.mem_flatMap, List.mem_map, List.mem_range] at hx
    obtain ⟨y, hy, x2, hx2, rfl⟩ := hx
    exact pixel_diff6_le _ _ _

theorem total_diff_eq_sum_mod (image : RgbImage) :
    total_diff image = (diffList image).sum % u64_MOD := by
  unfold total_diff
  rw [foldl_addmod u64_MOD (by norm_num [u64_MOD]) _ 0 (by norm_num [u64_MOD]),
    Nat.zero_add]

/-! ## Claim C7: sentinel for degenerate images, bounded score otherwise -/

/-- C7: for every image whose width or height is below 2 the score is the
sentinel `f64::MAX`; the returned score is always non-negative and never
exceeds `f64::MAX` (i.e. it is a finite `f64` value). -/
theorem C7_score_sentinel_and_bounds (image : RgbImage) :
    ((image.width < 2 ∨ image.height < 2) →
      calculate_smoothness_score image = f64_MAX) ∧
    0 ≤ calculate_smoothness_score image ∧
    calculate_smoothness_score image ≤ f64_MAX := by
  have hMAX : (0 : ℚ) ≤ f64_MAX := by unfold f64_MAX; norm_num
  unfold calculate_smoothness_score
  split_ifs with h1 h2
  · exact ⟨fun _ => rfl, hMAX, le_refl _⟩
  · exact ⟨fun hcon => absurd hcon h1, hMAX, le_refl _⟩
  · refine ⟨fun hcon => absurd hcon h1, by positivity, ?_⟩
    have htlt : total_diff image < u64_MOD := by
      rw [total_diff_eq_sum_mod]
      exact Nat.mod_lt _ (by norm_num [u64_MOD])
    have hnum1 : 1 ≤ (image.width - 1) * (image.height - 1) * 2 % u32_MOD :=
      Nat.one_le_iff_ne_zero.mpr h2
    calc (total_diff image : ℚ) /
        (((image.width - 1) * (image.height - 1) * 2 % u32_MOD : Nat) : ℚ)
        ≤ (total_diff image : ℚ) := by
          apply div_le_self (by positivity)
          exact_mod_cast hnum1
      _ ≤ (u64_MOD : ℚ) := by exact_mod_cast htlt.le
      _ ≤ f64_MAX := by unfold u64_MOD f64_MAX; norm_num

/-- Witness for C7 at the 1×1 image `img1`. -/
theorem C7_witness :
    calculate_smoothness_score img1 = f64_MAX ∧
      0 ≤ calculate_smoothness_score img1 := by
  have h := C7_score_sentinel_and_bounds img1
  exact ⟨h.1 (Or.inl (by decide)), h.2.1⟩

/-! ## Claim C4: the scoring formula (corrected) -/

/-- C4 (amended): for every image with both dimensions at least 2 *and*
`(width-1)*(height-1)*2 < 2^32` (no `u32` overflow of `num_comparisons`), the
score equals the spec formula — the plain sum of the six absolute per-channel
neighbour differences divided by `2*(width-1)*(height-1)` — and it is `0`
exactly when every compared pair of neighbouring pixels is equal. -/
theorem C4_amended_score_formula (image : RgbImage)
    (hw : 2 ≤ image.width) (hh : 2 ≤ image.height)
    (hnc : (image.width - 1) * (image.height - 1) * 2 < 2 ^ 32) :
    calculate_smoothness_score image = spec_smoothness_score image ∧
    (calculate_smoothness_score image = 0 ↔
      ∀ x y, x < image.width - 1 → y < image.height - 1 →
        image.getPixel (x + 1) y = image.getPixel x y ∧
        image.getPixel x (y + 1) = image.getPixel x y) := by
  have hP : (image.height - 1) * (image.width - 1) * 2 < 2 ^ 32 := by
    rw [Nat.mul_comm (image.height - 1) (image.width - 1)]
    exact hnc
  have hsum_le := diffList_sum_le image
  have hsum_lt : (diffList image).sum < u64_MOD := by
    unfold u64_MOD
    omega
  have htd : total_diff image = (diffList image).sum := by
    rw [total_diff_eq_sum_mod, Nat.mod_eq_of_lt hsum_lt]
  have hnum_mod : (image.width - 1) * (image.height - 1) * 2 % u32_MOD =
      (image.width - 1) * (image.height - 1) * 2 := by
    apply Nat.mod_eq_of_lt
    unfold u32_MOD
    exact hnc
  have hw1 : 0 < image.width - 1 := by omega
  have hh1 : 0 < image.height - 1 := by omega
  have hnum_pos : 0 < (image.width - 1) * (image.height - 1) * 2 :=
    Nat.mul_pos (Nat.mul_pos hw1 hh1) (by norm_num)
  have hg : ¬ (image.width < 2 ∨ image.height < 2) := by omega
  have hscore : calculate_smoothness_score image =
      ((diffList image).sum : ℚ) /
        (((image.width - 1) * (image.height - 1) * 2 : Nat) : ℚ) := by
    unfold calculate_smoothness_score
    rw [if_neg hg, if_neg (by rw [hnum_mod]; omega), htd, hnum_mod]
  have hD0 : (((image.width - 1) * (image.height - 1) * 2 : Nat) : ℚ) ≠ 0 := by
    exact_mod_cast hnum_pos.ne'
  constructor
  · rw [hscore]
    unfold spec_smoothness_score
    have hco : (image.width - 1) * (image.height - 1) * 2 =
        2 * (image.width - 1) * (image.height - 1) := by ring
    rw [hco]
  · rw [hscore, div_eq_zero_iff]
    constructor
    · rintro (hz | hz)
      · have hs : (diffList image).sum = 0 := by exact_mod_cast hz
        rw [List.sum_eq_zero_iff] at hs
        intro x y hx hy
        have hmem : pixel_diff6 (image.getPixel x y) (image.getPixel (x + 1) y)
            (image.getPixel x (y + 1)) ∈ diffList image := by
          unfold diffList
          simp only [List.mem_flatMap, List.mem_map, List.mem_range]
          exact ⟨y, hy, x, hx, rfl⟩
        exact (pixel_diff6_eq_zero_iff _ _ _).mp (hs _ hmem)
      · exact absurd hz hD0
    · intro hall
      left
      have hs : (diffList image).sum = 0 := by
        rw [List.sum_eq_zero_iff]
        intro d hd
        unfold diffList at hd
        simp only [List.mem_flatMap, List.mem_map, List.mem_range] at hd
        obtain ⟨y, hy, x, hx, rfl⟩ := hd
        exact (pixel_diff6_eq_zero_iff _ _ _).mpr (hall x y hx hy)
      exact_mod_cast hs

/-- Witness for C4 (amended) at the uniform 2×2 image `img2u`. -/
theorem C4_witness :
    calculate_smoothness_score img2u = spec_smoothness_score img2u :=
  (C4_amended_score_formula img2u (by decide) (by decide) (by decide)).1

theorem bigUniform_getPixel (x y : Nat) : bigUniform.getPixel x y = pixel0 := by
  show (List.replicate (65537 * 65537) pixel0).getD (y * 65537 + x) pixel0 =
    pixel0
  rw [List.getD_eq_getElem?_getD, List.getElem?_replicate]
  split_ifs <;> rfl

/-- Counterexample to C4 as stated: on the uniform 65537×65537 image the
`u32` product `num_comparisons = 65536*65536*2 = 2^33` wraps to `0`, so the
code returns `f64::MAX` while the claimed formula yields `0`. -/
theorem C4_counterexample :
    calculate_smoothness_score bigUniform ≠ spec_smoothness_score bigUniform := by
  have h1 : calculate_smoothness_score bigUniform = f64_MAX := by
    unfold calculate_smoothness_score
    rw [if_neg (by decide), if_pos (by decide)]
  have h2 : spec_smoothness_score bigUniform = 0 := by
    have hz : (diffList bigUniform).sum = 0 := by
      rw [List.sum_eq_zero_iff]
      intro d hd
      unfold diffList at hd
      simp only [List.mem_flatMap, List.mem_map, List.mem_range] at hd
      obtain ⟨y, hy, x, hx, rfl⟩ := hd
      rw [bigUniform_getPixel, bigUniform_getPixel, bigUniform_getPixel]
      decide
    unfold spec_smoothness_score
    rw [hz]
    simp
  rw [h1, h2]
  unfold f64_MAX
  norm_num

/-! ## Sweep enumeration helpers -/

theorem build_params_eq (k1 k2 a1 a2 b1 b2 : Int) :
    build_params (k1, k2) (a1, a2) (b1, b2) =
      (List.range (k2 - k1).toNat).flatMap fun (i : Nat) =>
        (List.range (a2 - a1).toNat).flatMap fun (j : Nat) =>
          (List.range (b2 - b1).toNat).map fun (l : Nat) =>
            (st_as_u32 (k1 + (i : Int)), a1 + (j : Int), b1 + (l : Int)) := by
  unfold build_params range_values
  rw [List.flatMap_map (fun (i : Nat) => k1 + (i : Int))]
  congr 1
  funext i
  rw [List.flatMap_map (fun (j : Nat) => a1 + (j : Int))]
  congr 1
  funext j
  rw [List.map_map]
  rfl

theorem getElem?_triple {α : Type} (F : Nat → Nat → Nat → α)
    (n1 n2 n3 i j l : Nat) (hi : i < n1) (hj : j < n2) (hl : l < n3) :
    ((List.range n1).flatMap fun x => (List.range n2).flatMap fun y =>
      (List.range n3).map fun z => F x y z)[i * (n2 * n3) + (j * n3 + l)]? =
      some (F i j l) := by
  have hlen2 : ∀ x, x < n1 → ((List.range n2).flatMap fun y =>
      (List.range n3).map fun z => F x y z).length = n2 * n3 := by
    intro x _
    exact length_flatMap_range _ _ _ (fun y _ => by simp)
  rw [getElem?_flatMap_range _ n1 (n2 * n3) i (j * n3 + l) hlen2 hi
    (mul_add_lt_mul hj hl)]
  rw [getElem?_flatMap_range _ n2 n3 j l (fun y _ => by simp) hj hl]
  rw [List.getElem?_map, List.getElem?_range hl]
  rfl

theorem build_params_length (k1 k2 a1 a2 b1 b2 : Int) :
    (build_params (k1, k2) (a1, a2) (b1, b2)).length =
      (k2 - k1).toNat * ((a2 - a1).toNat * (b2 - b1).toNat) := by
  rw [build_params_eq]
  refine length_flatMap_range _ _ _ (fun i _ => ?_)
  exact length_flatMap_range _ _ _ (fun j _ => by simp)

/-! ## Claim C8: the sweep enumerates the Cartesian product in nested order -/

/-- C8: for inclusive operator ranges `[klo, khi]`, `[alo, ahi]`, `[blo, bhi]`
(each with lower bound ≤ upper bound; `get_user_range` turns `[lo, hi]` into
the half-open `lo..hi+1`), the `params` vector has exactly
`|K| * (|A| * |B|)` entries and the entry at nested-order position
`i*(|A|*|B|) + j*|B| + l` is the triple for `(klo+i, alo+j, blo+l)` — every
triple of the product appears exactly once, ordered k → a → b outer to inner
(the stored iteration count being the `u32` wrap of `klo+i`, cf. C10). -/
theorem C8_sweep_cartesian_product (klo khi alo ahi blo bhi : Int)
    (hk : klo ≤ khi) (ha : alo ≤ ahi) (hb : blo ≤ bhi) :
    (build_params (klo, khi + 1) (alo, ahi + 1) (blo, bhi + 1)).length =
      (khi + 1 - klo).toNat *
        ((ahi + 1 - alo).toNat * (bhi + 1 - blo).toNat) ∧
    ∀ i j l : Nat, i < (khi + 1 - klo).toNat → j < (ahi + 1 - alo).toNat →
      l < (bhi + 1 - blo).toNat →
      (build_params (klo, khi + 1) (alo, ahi + 1) (blo, bhi + 1))[i *
        ((ahi + 1 - alo).toNat * (bhi + 1 - blo).toNat) +
        (j * (bhi + 1 - blo).toNat + l)]? =
        some (st_as_u32 (klo + (i : Int)), alo + (j : Int), blo + (l : Int)) := by
  constructor
  · exact build_params_length klo (khi + 1) alo (ahi + 1) blo (bhi + 1)
  · intro i j l hi hj hl
    rw [build_params_eq]
    exact getElem?_triple _ _ _ _ i j l hi hj hl

/-- Witness for C8 with ranges `k ∈ [0,1]`, `a ∈ [5,5]`, `b ∈ [7,8]`:
4 triples; position 3 (= `1*(1*2) + 0*2 + 1`) holds `(1, 5, 8)`. -/
theorem C8_witness :
    (build_params (0, 2) (5, 6) (7, 9)).length = 4 ∧
      (build_params (0, 2) (5, 6) (7, 9))[3]? = some (1, 5, 8) := by
  have h := C8_sweep_cartesian_product 0 1 5 5 7 8 (by norm_num) (by norm_num)
    (by norm_num)
  constructor
  · exact h.1.trans (by decide)
  · have h2 := h.2 1 0 1 (by decide) (by decide) (by decide)
    exact h2.trans (by decide)

/-! ## Claim C10: the iteration count is wrapped to u32 -/

/-- C10: for any accepted iteration range `[klo, khi]` (any `i64` values,
negative ones included — the parser does not reject them) and single values
`a`, `b`, the sweep builds one entry per `k = klo + i`, and the iteration
count stored in that entry (the one later passed to `arnold_decode`) is `k`
reduced modulo `2^32` to a non-negative value — Rust's `k as u32` wrap. -/
theorem C10_iterations_wrap_u32 (klo khi a b : Int) (hk : klo ≤ khi) :
    (build_params (klo, khi + 1) (a, a + 1) (b, b + 1)).length =
      (khi + 1 - klo).toNat ∧
    ∀ i : Nat, i < (khi + 1 - klo).toNat →
      (build_params (klo, khi + 1) (a, a + 1) (b, b + 1))[i]? =
        some (((klo + (i : Int)) % (2 : Int) ^ 32).toNat, a, b) := by
  constructor
  · rw [build_params_length]
    simp
  · intro i hi
    rw [build_params_eq]
    have e1 : (a + 1 - a : Int) = 1 := by ring
    have e2 : (b + 1 - b : Int) = 1 := by ring
    rw [e1, e2, Int.toNat_one]
    have h := getElem?_triple
      (fun x y z => (st_as_u32 (klo + (x : Int)), a + (y : Int), b + (z : Int)))
      (khi + 1 - klo).toNat 1 1 i 0 0 hi (by norm_num) (by norm_num)
    simp only [Nat.mul_one, Nat.one_mul, Nat.zero_mul, Nat.add_zero,
      Nat.zero_add, Nat.cast_zero, add_zero] at h
    exact h

/-- Witness for C10: the single value `k = -1` (accepted, negative) produces
one entry whose iteration count is `4294967295`. -/
theorem C10_witness :
    (build_params (-1, 0) (0, 1) (0, 1)).length = 1 ∧
      (build_params (-1, 0) (0, 1) (0, 1))[0]? = some (4294967295, 0, 0) := by
  have h := C10_iterations_wrap_u32 (-1) (-1) 0 0 (by norm_num)
  constructor
  · exact h.1.trans (by decide)
  · have h2 := h.2 0 (by decide)
    exact h2.trans (by decide)

/-! ## Claim C6: i64 width of the transform intermediates (corrected) -/

theorem in_i64_of_abs_le {x : Int} (h : |x| ≤ 2 ^ 63 - 1) : in_i64 x := by
  rcases abs_le.mp h with ⟨h1, h2⟩
  exact ⟨by linarith, by linarith⟩

/-- Counterexample to C6 as stated: `a = b = 2^32` are accepted by the range
parser (both are valid `i64` values) and with `(row, col) = (0, 1)` on a 2×2
image the intermediate `a*b = 2^64` does not fit in `i64`. -/
theorem C6_counterexample :
    ¬ ∀ x ∈ transform_intermediates (2 ^ 32) (2 ^ 32) 0 1, in_i64 x := by
  intro h
  have hx := h ((2 : Int) ^ 32 * 2 ^ 32) (by simp [transform_intermediates])
  have h2 := hx.2
  norm_num at h2

/-- C6 (amended): for parameters bounded by `|a| ≤ 2^15`, `|b| ≤ 2^15` and
every destination coordinate `(row, col)` in `[0, N)²` with `N ≤ 2^32`, every
signed intermediate of the transform fits in `i64`. -/
theorem C6_amended_no_overflow (a b : Int) (n row col : Nat)
    (ha : |a| ≤ 2 ^ 15) (hb : |b| ≤ 2 ^ 15) (hn : n ≤ 2 ^ 32)
    (hrow : row < n) (hcol : col < n) :
    ∀ x ∈ transform_intermediates a b row col, in_i64 x := by
  have hra : |(row : Int)| ≤ (2 : Int) ^ 32 := by
    rw [abs_of_nonneg (by positivity)]
    have hr2 : row ≤ 2 ^ 32 := by omega
    exact_mod_cast hr2
  have hca : |(col : Int)| ≤ (2 : Int) ^ 32 := by
    rw [abs_of_nonneg (by positivity)]
    have hc2 : col ≤ 2 ^ 32 := by omega
    exact_mod_cast hc2
  have h1 : |b * (col : Int)| ≤ 2 ^ 47 := by
    rw [abs_mul]
    calc |b| * |(col : Int)| ≤ 2 ^ 15 * 2 ^ 32 :=
          mul_le_mul hb hca (abs_nonneg _) (by positivity)
      _ = 2 ^ 47 := by norm_num
  have h2 : |a * (row : Int)| ≤ 2 ^ 47 := by
    rw [abs_mul]
    calc |a| * |(row : Int)| ≤ 2 ^ 15 * 2 ^ 32 :=
          mul_le_mul ha hra (abs_nonneg _) (by positivity)
      _ = 2 ^ 47 := by norm_num
  have h3 : |a * b| ≤ 2 ^ 30 := by
    rw [abs_mul]
    calc |a| * |b| ≤ 2 ^ 15 * 2 ^ 15 :=
          mul_le_mul ha hb (abs_nonneg _) (by positivity)
      _ = 2 ^ 30 := by norm_num
  have h4 : |a * b + 1| ≤ 2 ^ 30 + 1 := by
    have habs := abs_add (a * b) 1
    rw [abs_one] at habs
    linarith
  have h5 : |(a * b + 1) * (col : Int)| ≤ (2 ^ 30 + 1) * 2 ^ 32 := by
    rw [abs_mul]
    exact mul_le_mul h4 hca (abs_nonneg _) (by positivity)
  have h6 : |(row : Int) + b * (col : Int)| ≤ 2 ^ 32 + 2 ^ 47 := by
    have habs := abs_add (row : Int) (b * (col : Int))
    linarith
  have h7 : |a * (row : Int) + (a * b + 1) * (col : Int)| ≤
      2 ^ 47 + (2 ^ 30 + 1) * 2 ^ 32 := by
    have habs := abs_add (a * (row : Int)) ((a * b + 1) * (col : Int))
    linarith
  intro x hx
  simp only [transform_intermediates, List.mem_cons, List.not_mem_nil,
    or_false] at hx
  rcases hx with rfl | rfl | rfl | rfl | rfl | rfl | rfl
  · exact in_i64_of_abs_le (le_trans h1 (by norm_num))
  · exact in_i64_of_abs_le (le_trans h6 (by norm_num))
  · exact in_i64_of_abs_le (le_trans h3 (by norm_num))
  · exact in_i64_of_abs_le (le_trans h4 (by norm_num))
  · exact in_i64_of_abs_le (le_trans h2 (by norm_num))
  · exact in_i64_of_abs_le (le_trans h5 (by norm_num))
  · exact in_i64_of_abs_le (le_trans h7 (by norm_num))

/-- Witness for C6 (amended) at `a = 3`, `b = -5`, `N = 2`,
`(row, col) = (0, 1)`, intermediate `b*col`. -/
theorem C6_witness : in_i64 ((-5) * ((1 : Nat) : Int)) := by
  have h := C6_amended_no_overflow 3 (-5) 2 0 1 (by decide) (by decide)
    (by norm_num) (by norm_num) (by norm_num)
  exact h _ (by simp [transform_intermediates])
